import Mathlib

/-!
Verification of the Melosphere core (syllable estimator, rhythmic enhancer,
blender) against its natural-language specification.

Python strings are modeled as lists of characters (type Str below).  The
repository ships two variants of the blending code: the library module
src/blend_utils.py (definitions prefixed blendUtils below) and the inline
copies in src/app.py (definitions prefixed app below); src/rhythm_utils.py
provides the enhancer embedded without a prefix.  External library calls
(the pronouncing dictionary, hashlib sha256, the seeded random generator)
are modeled as components of an explicit record of external functions
(structure Ext); the ambient interpreter state that unseeded randomness
would consult (the global random-module state and the wall clock) is passed
explicitly as structure PyEnv, faithfully to the rule that stateful code is
embedded by explicit state passing.

Note on the source text: the files in the repository are stored with a
double-encoded (mojibake) character set, e.g. the em dash appears as the
three-character sequence в Җ ” and the accented-vowel class of the syllable
heuristic appears as Cyrillic letters and symbols.  The source as committed
is the authority, so the literal character sequences of the files are
embedded here unchanged.
-/

abbrev Str := List Char

/-- Whitespace as recognized by the Python str.split / strip / regex
whitespace class: ASCII whitespace plus the unicode space characters. -/
def pyWhitespaceChars : List Char :=
  [' ', '\t', '\n', '\r', Char.ofNat 11, Char.ofNat 12,
   Char.ofNat 28, Char.ofNat 29, Char.ofNat 30, Char.ofNat 31,
   Char.ofNat 133, Char.ofNat 160, Char.ofNat 0x1680,
   Char.ofNat 0x2000, Char.ofNat 0x2001, Char.ofNat 0x2002, Char.ofNat 0x2003,
   Char.ofNat 0x2004, Char.ofNat 0x2005, Char.ofNat 0x2006, Char.ofNat 0x2007,
   Char.ofNat 0x2008, Char.ofNat 0x2009, Char.ofNat 0x200A,
   Char.ofNat 0x2028, Char.ofNat 0x2029, Char.ofNat 0x202F,
   Char.ofNat 0x205F, Char.ofNat 0x3000]

def pyIsSpace (c : Char) : Bool := pyWhitespaceChars.contains c

/-- Python str.lstrip (no argument): drop leading whitespace. -/
def lstrip (s : Str) : Str := s.dropWhile pyIsSpace

/-- Python str.rstrip (no argument): drop trailing whitespace. -/
def rstrip (s : Str) : Str := (s.reverse.dropWhile pyIsSpace).reverse

/-- Python str.strip (no argument): drop whitespace at both ends. -/
def pyStrip (s : Str) : Str := lstrip (rstrip s)

/-- State machine of the regex substitution that replaces every maximal
whitespace run by a single space; the boolean records whether the previous
character was part of a whitespace run already replaced. -/
def collapseWsGo : Bool → Str → Str
  | _, [] => []
  | prevWs, c :: cs =>
    if pyIsSpace c then
      if prevWs then collapseWsGo true cs else ' ' :: collapseWsGo true cs
    else c :: collapseWsGo false cs

/-- The regex substitution replacing each whitespace run by one space. -/
def collapseWs (s : Str) : Str := collapseWsGo false s

/-- Whitespace normalization as performed at the end of
rhythmic_translation_enhancement (src/rhythm_utils.py line 110): replace
each whitespace run by a single space, then strip both ends. -/
def normWs (s : Str) : Str := pyStrip (collapseWs s)

/-- Worker for Python str.split with no argument: split on whitespace runs
and drop empty pieces; acc is the word currently being read. -/
def pySplitGo : Str → Str → List Str
  | [], acc => if acc = [] then [] else [acc]
  | c :: cs, acc =>
    if pyIsSpace c then
      if acc = [] then pySplitGo cs [] else acc :: pySplitGo cs []
    else pySplitGo cs (acc ++ [c])

/-- Python str.split with no argument (also the tokenization obtained from
re.split on a whitespace-run pattern followed by dropping blank pieces). -/
def pySplit (s : Str) : List Str := pySplitGo s []

/-- The join of a token list with single spaces. -/
def joinSpace (ts : List Str) : Str := List.intercalate [' '] ts

/-- Python str.lower, modeled on the ASCII range.  The Python function also
lowercases non-ASCII letters; no claim exercises those, and the non-ASCII
members of the source character classes are symbols or letters whose case
never affects the properties proved here. -/
def pyLower (c : Char) : Char :=
  if 'A' ≤ c ∧ c ≤ 'Z' then Char.ofNat (c.toNat + 32) else c

/-- Lowercasing of a whole token, as in tok.lower(). -/
def lowerTok (w : Str) : Str := w.map pyLower

/-- Python str.replace: replace non-overlapping occurrences of pat left to
right.  An empty pattern is treated as no occurrence (the source only uses
nonempty patterns).  The recursion is driven by a fuel argument equal to the
length of the remaining string so that the definition is structural (a
matched occurrence consumes at least one character, so the fuel never runs
out when it starts at the length of the string). -/
def pyReplaceFuel (pat rep : Str) : Nat → Str → Str
  | _, [] => []
  | 0, s => s
  | fuel + 1, c :: cs =>
    if pat ≠ [] ∧ pat.isPrefixOf (c :: cs)
    then rep ++ pyReplaceFuel pat rep fuel (cs.drop (pat.length - 1))
    else c :: pyReplaceFuel pat rep fuel cs

def pyReplace (pat rep s : Str) : Str := pyReplaceFuel pat rep s.length s

/-! ## src/rhythm_utils.py -/

/-- The two dash sequences replaced by clean_text (lines 14 of the source;
in the committed file the dashes are the mojibake three-character
sequences). -/
def dashSeqA : Str := ['в', 'Җ', '”']

def dashSeqB : Str := ['в', 'Җ', '“']

/-- The character class removed by clean_text (line 16 of the source). -/
def quoteClassChars : List Char :=
  [Char.ofNat 34, 'в', 'Җ', 'ң', 'қ', 'ҳ', 'ҷ']

/-- clean_text of src/rhythm_utils.py lines 8-19: unify dashes, remove the
quote class, strip the ends.  The None guard of the source is outside the
model, which quantifies over strings. -/
def clean_text (s : Str) : Str :=
  pyStrip ((pyReplace dashSeqB ['-'] (pyReplace dashSeqA ['-'] s)).filter
    (fun c => !(quoteClassChars.contains c)))

/-- The characters kept by the filter of _syllable_count_heuristic_word
(line 49 of the source) besides the ASCII range a-z. -/
def heuristicKeepExtra : List Char :=
  ['Г', 'Ў', Char.ofNat 160, 'ў', 'Ө', 'Ј', 'Ҙ', 'Д', 'Ғ', '©', 'Ё', 'Ә',
   '«', '“', 'ӯ', '¬', '®', 'Ҝ', 'і', 'І', 'ҙ', '¶', 'ө', 'Е', 'Қ', 'ә',
   '№', '»', 'ј', 'y', 'Й', '”', 'Ӣ']

def heuristicKeepChar (c : Char) : Bool :=
  ('a' ≤ c ∧ c ≤ 'z') || heuristicKeepExtra.contains c

/-- The vowel class of _syllable_count_heuristic_word (line 55 of the
source) besides the five ASCII vowels. -/
def vowelExtra : List Char :=
  ['Г', 'Ў', Char.ofNat 160, 'ў', 'Ө', 'Ј', 'Ҙ', 'Д', 'Ғ', '©', 'Ё', 'Ә',
   '«', '“', 'ӯ', '¬', '®', 'Ҝ', 'і', 'І', 'ҙ', '¶', 'ө', 'Е', 'Қ', 'ә',
   '№', '»', 'ј', 'y']

def isVowelChar (c : Char) : Bool :=
  c = 'a' || c = 'e' || c = 'i' || c = 'o' || c = 'u' || vowelExtra.contains c

/-- The vowel-group loop of _syllable_count_heuristic_word: count
transitions from non-vowel to vowel; the boolean is prev_vowel. -/
def countVowelGroups : Bool → Str → Nat
  | _, [] => 0
  | prev, c :: cs =>
    (if isVowelChar c && !prev then 1 else 0) + countVowelGroups (isVowelChar c) cs

/-- _syllable_count_heuristic_word of src/rhythm_utils.py lines 46-59:
lowercase, keep only the recognized characters, return 0 if nothing is
left, otherwise the number of vowel groups with a minimum of 1. -/
def _syllable_count_heuristic_word (word : Str) : Nat :=
  let lw := (lowerTok word).filter heuristicKeepChar
  if lw = [] then 0
  else
    let groups := countVowelGroups false lw
    if groups > 0 then groups else 1

/-- External library functions used by the core, passed explicitly:
the pronouncing dictionary lookup, the pronouncing syllable counter (whose
failure, an exception in the source, is the value none), the sha256-derived
64-bit seed of build_fillers, and the two draws from a random generator
freshly seeded with a given seed (sample without replacement and repeated
choice). -/
structure PyExt where
  phones_for_word : Str → List Str
  pronouncing_syllable_count : Str → Option Nat
  sha256hex16 : Str → Nat
  rndSample : Nat → Nat → List Str
  rndChoice : Nat → Nat → List Str

/-- Ambient interpreter state that unseeded randomness would consult: the
global state of the random module and the wall clock.  The source never
reads either (it always seeds a fresh generator), which the theorems below
make precise. -/
structure PyEnv where
  random_state : Nat
  wall_clock : Nat

/-- Per-word syllable count on the English path of count_syllables (lines
31-39 of the source): use the pronouncing dictionary on the lowercased
word; on a missing entry or a counter failure fall back to the heuristic. -/
def enWordSyllables (E : PyExt) (w : Str) : Nat :=
  match E.phones_for_word (lowerTok w) with
  | [] => _syllable_count_heuristic_word w
  | p :: _ =>
    match E.pronouncing_syllable_count p with
    | some n => n
    | none => _syllable_count_heuristic_word w

/-- count_syllables of src/rhythm_utils.py lines 22-44. -/
def count_syllables (E : PyExt) (text lang_code : Str) : Nat :=
  let t := clean_text text
  if t = [] then 0
  else if (String.toList "en").isPrefixOf lang_code then
    ((pySplit t).map (enWordSyllables E)).sum
  else
    ((pySplit t).map _syllable_count_heuristic_word).sum

def _DEFAULT_FILLERS : List Str :=
  [String.toList "oh", String.toList "la", String.toList "yeah",
   String.toList "na", String.toList "hey", String.toList "mmm"]

/-- build_fillers of src/rhythm_utils.py lines 64-79: k is the number of
fillers, the seed is the sha256-derived integer of the seed text (0 when no
seed text is given); a fresh generator with that seed draws a sample
without replacement when k fits in the vocabulary and with replacement
otherwise.  The PyEnv argument is the ambient state an unseeded generator
would have read; the function never touches it. -/
def build_fillers (E : PyExt) (_env : PyEnv) (diff : Int) (max_fillers : Nat)
    (seed_text : Option Str) : Str :=
  let k : Nat := min max_fillers (max 0 diff).toNat
  if k = 0 then []
  else
    let seed : Nat := match seed_text with
      | none => 0
      | some s => E.sha256hex16 s
    if k ≤ _DEFAULT_FILLERS.length then joinSpace (E.rndSample seed k)
    else joinSpace (E.rndChoice seed k)

def sentencePunct : List Char := ['.', '!', '?']

/-- insert_fillers_safely of src/rhythm_utils.py lines 81-96 (the copy in
src/app.py lines 330-343 is identical).  The regex search for a final
punctuation mark followed only by whitespace, applied to the stripped text,
succeeds exactly when the last character is one of . ! ? and the matched
position is that last character; both comma branches of the source return
the same appended string. -/
def insert_fillers_safely (translated_text fillers_str : Str) : Str :=
  if fillers_str = [] then translated_text
  else
    let t := pyStrip translated_text
    match t.getLast? with
    | some c =>
      if sentencePunct.contains c then
        rstrip t.dropLast ++ [',', ' '] ++ fillers_str ++ [c]
      else t ++ [',', ' '] ++ fillers_str
    | none => t ++ [',', ' '] ++ fillers_str

/-- rhythmic_translation_enhancement of src/rhythm_utils.py lines 98-111. -/
def rhythmic_translation_enhancement (E : PyExt) (env : PyEnv)
    (original translated : Str) (max_fillers : Nat) :
    Str × Nat × Nat × Nat × Int :=
  let orig_syllables := count_syllables E original (String.toList "en")
  let trans_syll_before := count_syllables E translated (String.toList "xx")
  let diff : Int := (orig_syllables : Int) - (trans_syll_before : Int)
  if diff ≤ 0 then
    (normWs (pyStrip translated), orig_syllables, trans_syll_before,
     trans_syll_before, diff)
  else
    let fillers_str :=
      build_fillers E env diff max_fillers (some (translated ++ original))
    let enhanced := insert_fillers_safely translated fillers_str
    let trans_syll_after := count_syllables E enhanced (String.toList "xx")
    (normWs enhanced, orig_syllables, trans_syll_before, trans_syll_after, diff)

/-! ## Blending strategies -/

/-- One step of the duplicate-suppressing append used by the src/app.py
blenders: skip the token when it equals the previously emitted token up to
case, otherwise append it. -/
def pushTok (acc : List Str) (tok : Str) : List Str :=
  match acc.getLast? with
  | some l => if lowerTok tok = lowerTok l then acc else acc ++ [tok]
  | none => acc ++ [tok]

/-- The loop of src/app.py that rebuilds a token list while suppressing
consecutive case-insensitive duplicates. -/
def dedupeCI (ws : List Str) : List Str := ws.foldl pushTok []

/-- interleave_words of src/app.py lines 365-376: round-robin across the
token lists by index, suppressing consecutive case-insensitive
duplicates. -/
def app_interleave_words (_original : Str) (translations_by_lang : List Str) : Str :=
  let tokenized := translations_by_lang.map pySplit
  let max_len := (tokenized.map List.length).foldl max 0
  joinSpace ((List.range max_len).foldl
    (fun acc i => tokenized.foldl
      (fun a tl =>
        match tl[i]? with
        | some tok => pushTok a tok
        | none => a) acc) [])

/-- interleave_words of src/blend_utils.py lines 5-14: round-robin across
the token lists by index, with no duplicate suppression. -/
def blendUtils_interleave_words (_original : Str) (translations_by_lang : List Str) : Str :=
  let tokenized := translations_by_lang.map pySplit
  let max_len := (tokenized.map List.length).foldl max 0
  joinSpace ((List.range max_len).foldl
    (fun acc i => tokenized.foldl
      (fun a tl =>
        match tl[i]? with
        | some tok => a ++ [tok]
        | none => a) acc) [])

/-- The slice assembly of the three-or-more branch of phrase_swap (both
variants): the idx-th translation contributes its proportional slice, or
its first up-to-3 tokens (at least 1) when the slice is empty. -/
def phraseSliceAssemble (segments : List (List Str)) : List Str :=
  let N := segments.length
  (segments.enum.map (fun p =>
    let n := p.2.length
    let start := p.1 * n / N
    let stop := (p.1 + 1) * n / N
    if start < stop then (p.2.drop start).take (stop - start)
    else p.2.take (max 1 (min 3 n)))).flatten

/-- phrase_swap of src/app.py lines 378-409.  The branch conditions of the
source test the length of the list of tokenized translations, which equals
the length of the translation list, so the cases are matched on the
translation list directly; the unused seg_size of the source is omitted. -/
def app_phrase_swap (_original : Str) (translations_by_lang : List Str) : Str :=
  match translations_by_lang with
  | [t0] => t0
  | [a0, b0] =>
    let a := pySplit a0
    let b := pySplit b0
    joinSpace (dedupeCI (a.take ((a.length + 1) / 2) ++ b.drop (b.length / 2)))
  | ts =>
    joinSpace (dedupeCI (phraseSliceAssemble (ts.map pySplit)))

/-- phrase_swap of src/blend_utils.py lines 16-40: as the app variant but
with no duplicate suppression, with an explicit empty case, and with the
(vacuous) per-token strip filter of the source retained. -/
def blendUtils_phrase_swap (_original : Str) (translations_by_lang : List Str) : Str :=
  match translations_by_lang with
  | [] => []
  | [t0] => t0
  | [a0, b0] =>
    let a := (pySplit a0).filter (fun w => !(pyStrip w).isEmpty)
    let b := (pySplit b0).filter (fun w => !(pyStrip w).isEmpty)
    joinSpace (a.take ((a.length + 1) / 2) ++ b.drop (b.length / 2))
  | ts =>
    joinSpace (phraseSliceAssemble
      (ts.map (fun t => (pySplit t).filter (fun w => !(pyStrip w).isEmpty))))

/-- The translation scan of last_word_swap in src/app.py lines 415-421:
find the first translation with a nonempty token list, swap in its last
token, or its second-to-last token when the last one equals the final
original token up to case and more than one token is available. -/
def appLastWordSwapLoop (orig_words : List Str) (original : Str) :
    List Str → Str
  | [] => original
  | t :: rest =>
    let tw := pySplit (pyStrip t)
    match tw.getLast? with
    | none => appLastWordSwapLoop orig_words original rest
    | some lastw =>
      let owLast := (orig_words.getLast?).getD []
      let new_last :=
        if lowerTok lastw = lowerTok owLast ∧ 1 < tw.length
        then (tw[tw.length - 2]?).getD []
        else lastw
      joinSpace (orig_words.dropLast ++ [new_last])

/-- last_word_swap of src/app.py lines 411-422. -/
def app_last_word_swap (original : Str) (translations_by_lang : List Str) : Str :=
  let orig_words := pySplit (pyStrip original)
  if orig_words = [] then original
  else appLastWordSwapLoop orig_words original translations_by_lang

/-- The translation scan of last_word_swap in src/blend_utils.py lines
47-52: always swap in the last token of the first nonempty translation. -/
def blendUtilsLastWordSwapLoop (orig_words : List Str) (original : Str) :
    List Str → Str
  | [] => original
  | t :: rest =>
    let tw := (pySplit (pyStrip t)).filter (fun w => !(pyStrip w).isEmpty)
    match tw.getLast? with
    | none => blendUtilsLastWordSwapLoop orig_words original rest
    | some lastw => joinSpace (orig_words.dropLast ++ [lastw])

/-- last_word_swap of src/blend_utils.py lines 42-52. -/
def blendUtils_last_word_swap (original : Str) (translations_by_lang : List Str) : Str :=
  let orig_words := (pySplit (pyStrip original)).filter (fun w => !(pyStrip w).isEmpty)
  if orig_words = [] then original
  else blendUtilsLastWordSwapLoop orig_words original translations_by_lang

/-! ## Auxiliary notions used by the statements and proofs -/

/-- A well-formed token: nonempty and free of whitespace.  Every token
produced by pySplit has this shape. -/
def GoodTok (w : Str) : Prop := w ≠ [] ∧ ∀ c ∈ w, pyIsSpace c = false

/-- Strings with no trailing whitespace (closed under rstrip). -/
def noTrailingWs (s : Str) : Prop :=
  ∀ c, s.getLast? = some c → pyIsSpace c = false

/-- True when the string begins with a whitespace character. -/
def pyStartsWs : Str → Bool
  | [] => false
  | c :: _ => pyIsSpace c

/-- No two consecutive tokens are equal after lowercasing. -/
def noAdjDupCI (ts : List Str) : Prop :=
  List.Chain' (fun a b => lowerTok a ≠ lowerTok b) ts

/-- The fillers drawn by build_fillers for a given seed and count: a sample
without replacement when the count fits the vocabulary, otherwise repeated
choices. -/
def chosenFillers (E : PyExt) (seed k : Nat) : List Str :=
  if k ≤ _DEFAULT_FILLERS.length then E.rndSample seed k else E.rndChoice seed k

/-- A concrete instance of the external functions, used to evaluate the
model at concrete inputs: an empty pronouncing dictionary, an
always-failing syllable counter, a constant hash, and samplers returning a
prefix of the vocabulary (respectively a repeated first filler). -/
def extTest : PyExt where
  phones_for_word := fun _ => []
  pronouncing_syllable_count := fun _ => none
  sha256hex16 := fun _ => 0
  rndSample := fun _ k => _DEFAULT_FILLERS.take k
  rndChoice := fun _ k => List.replicate k (String.toList "oh")

/-- A concrete instance whose pronouncing dictionary finds an entry for
every word while the syllable counter always fails (raises). -/
def extFailingCounter : PyExt where
  phones_for_word := fun _ => [String.toList "AA1"]
  pronouncing_syllable_count := fun _ => none
  sha256hex16 := fun _ => 0
  rndSample := fun _ k => _DEFAULT_FILLERS.take k
  rndChoice := fun _ k => List.replicate k (String.toList "oh")

def envZero : PyEnv := ⟨0, 0⟩


/-! ## Library: tokens, splitting, joining, stripping -/


theorem joinSpace_cons (t : Str) (ts : List Str) (h : ts ≠ []) :
    joinSpace (t :: ts) = t ++ ' ' :: joinSpace ts := by
  cases ts with
  | nil => exact absurd rfl h
  | cons t2 ts2 => rfl

theorem pySplitGo_cons_ws {c : Char} (h : pyIsSpace c = true) (cs acc : Str) :
    pySplitGo (c :: cs) acc =
      if acc = [] then pySplitGo cs [] else acc :: pySplitGo cs [] := by
  simp [pySplitGo, h]

theorem pySplitGo_cons_nonws {c : Char} (h : pyIsSpace c = false) (cs acc : Str) :
    pySplitGo (c :: cs) acc = pySplitGo cs (acc ++ [c]) := by
  simp [pySplitGo, h]

theorem pySplitGo_append_nonws (w : Str) (hw : ∀ c ∈ w, pyIsSpace c = false) :
    ∀ (s acc : Str), pySplitGo (w ++ s) acc = pySplitGo s (acc ++ w) := by
  induction w with
  | nil => intro s acc; simp
  | cons c w ih =>
    intro s acc
    have hc : pyIsSpace c = false := hw c (by simp)
    have hw' : ∀ d ∈ w, pyIsSpace d = false := fun d hd => hw d (by simp [hd])
    simp only [List.cons_append, pySplitGo_cons_nonws hc]
    rw [ih hw' s (acc ++ [c])]
    simp

theorem pySplitGo_eq_nil_iff (s : Str) :
    ∀ acc, pySplitGo s acc = [] ↔ (∀ c ∈ s, pyIsSpace c = true) ∧ acc = [] := by
  induction s with
  | nil =>
    intro acc
    by_cases h : acc = [] <;> simp [pySplitGo, h]
  | cons c cs ih =>
    intro acc
    by_cases hc : pyIsSpace c
    · by_cases hacc : acc = []
      · rw [pySplitGo_cons_ws hc, if_pos hacc, ih]
        simp [hacc, hc]
      · rw [pySplitGo_cons_ws hc, if_neg hacc]
        simp [hacc]
    · rw [pySplitGo_cons_nonws (by simpa using hc)]
      rw [ih]
      simp [hc]

theorem pySplitGo_good (s : Str) :
    ∀ acc, (∀ c ∈ acc, pyIsSpace c = false) →
      ∀ w ∈ pySplitGo s acc, GoodTok w := by
  induction s with
  | nil =>
    intro acc hacc w hw
    by_cases h : acc = []
    · simp [pySplitGo, h] at hw
    · simp [pySplitGo, h] at hw
      exact hw ▸ ⟨h, hacc⟩
  | cons c cs ih =>
    intro acc hacc w hw
    by_cases hc : pyIsSpace c
    · rw [pySplitGo_cons_ws hc] at hw
      by_cases hacc' : acc = []
      · rw [if_pos hacc'] at hw
        exact ih [] (by simp) w hw
      · rw [if_neg hacc'] at hw
        rcases List.mem_cons.mp hw with h | h
        · exact h ▸ ⟨hacc', hacc⟩
        · exact ih [] (by simp) w h
    · have hc' : pyIsSpace c = false := by simpa using hc
      rw [pySplitGo_cons_nonws hc'] at hw
      refine ih (acc ++ [c]) ?_ w hw
      intro d hd
      rcases List.mem_append.mp hd with h | h
      · exact hacc d h
      · simp at h; exact h ▸ hc'

theorem pySplit_good (s : Str) : ∀ w ∈ pySplit s, GoodTok w :=
  pySplitGo_good s [] (by simp)

theorem pySplit_joinSpace (ts : List Str) (h : ∀ w ∈ ts, GoodTok w) :
    pySplit (joinSpace ts) = ts := by
  induction ts with
  | nil => rfl
  | cons t ts ih =>
    have ht : GoodTok t := h t (by simp)
    have hts : ∀ w ∈ ts, GoodTok w := fun w hw => h w (by simp [hw])
    cases ts with
    | nil =>
      show pySplitGo (t ++ []) [] = [t]
      rw [pySplitGo_append_nonws t ht.2]
      simp [pySplitGo, ht.1]
    | cons t2 ts2 =>
      rw [joinSpace_cons t (t2 :: ts2) (by simp)]
      show pySplitGo (t ++ ' ' :: joinSpace (t2 :: ts2)) [] = t :: t2 :: ts2
      rw [pySplitGo_append_nonws t ht.2, pySplitGo_cons_ws (by decide)]
      rw [if_neg (by simpa using ht.1)]
      simp only [List.nil_append]
      exact congrArg _ (ih hts)

theorem pySplitGo_append_ws_cons {c : Char} (hc : pyIsSpace c = true)
    (a : Str) : ∀ (b acc : Str),
    pySplitGo (a ++ c :: b) acc = pySplitGo a acc ++ pySplit b := by
  induction a with
  | nil =>
    intro b acc
    rw [List.nil_append, pySplitGo_cons_ws hc]
    by_cases h : acc = []
    · rw [if_pos h, h]
      rfl
    · rw [if_neg h]
      have hacc : pySplitGo [] acc = [acc] := by simp [pySplitGo, h]
      rw [hacc]
      rfl
  | cons d a ih =>
    intro b acc
    by_cases hd : pyIsSpace d
    · rw [List.cons_append, pySplitGo_cons_ws hd, pySplitGo_cons_ws hd]
      by_cases h : acc = [] <;> simp [h, ih]
    · have hd' : pyIsSpace d = false := by simpa using hd
      rw [List.cons_append, pySplitGo_cons_nonws hd', pySplitGo_cons_nonws hd']
      exact ih b (acc ++ [d])

theorem pySplitGo_append_ws_single {c : Char} (hc : pyIsSpace c = true)
    (s acc : Str) : pySplitGo (s ++ [c]) acc = pySplitGo s acc := by
  have := pySplitGo_append_ws_cons hc s [] acc
  simpa [pySplit, pySplitGo] using this

theorem pySplitGo_append_ws_run (s r : Str) (hr : ∀ c ∈ r, pyIsSpace c = true) :
    ∀ acc, pySplitGo (s ++ r) acc = pySplitGo s acc := by
  induction r using List.reverseRecOn with
  | nil => simp
  | append_singleton r c ih =>
    intro acc
    have hc : pyIsSpace c = true := hr c (by simp)
    have hr' : ∀ d ∈ r, pyIsSpace d = true := fun d hd => hr d (by simp [hd])
    rw [← List.append_assoc, pySplitGo_append_ws_single hc, ih hr']

theorem rstrip_decomposition (s : Str) :
    s = rstrip s ++ (s.reverse.takeWhile pyIsSpace).reverse := by
  conv_lhs => rw [← List.reverse_reverse s,
    ← List.takeWhile_append_dropWhile pyIsSpace s.reverse]
  rw [List.reverse_append]
  rfl

theorem pySplit_rstrip (s : Str) : pySplit (rstrip s) = pySplit s := by
  conv_rhs => rw [rstrip_decomposition s]
  unfold pySplit
  rw [pySplitGo_append_ws_run]
  intro c hcmem
  exact List.mem_takeWhile_imp (List.mem_reverse.mp hcmem)

theorem pySplit_lstrip (s : Str) : pySplit (lstrip s) = pySplit s := by
  induction s with
  | nil => rfl
  | cons c cs ih =>
    by_cases hc : pyIsSpace c
    · unfold lstrip at ih ⊢
      rw [List.dropWhile_cons, if_pos hc]
      rw [ih]
      unfold pySplit
      rw [pySplitGo_cons_ws hc, if_pos rfl]
    · unfold lstrip
      rw [List.dropWhile_cons, if_neg hc]

theorem pySplit_pyStrip (s : Str) : pySplit (pyStrip s) = pySplit s := by
  unfold pyStrip
  rw [pySplit_lstrip, pySplit_rstrip]

theorem noTrailingWs_rstrip (s : Str) : noTrailingWs (rstrip s) := by
  intro c hc
  unfold rstrip at hc
  rw [List.getLast?_reverse] at hc
  have := List.head?_dropWhile_not pyIsSpace s.reverse
  rw [hc] at this
  exact this

theorem noTrailingWs_of_cons {d : Char} {s : Str} (h : noTrailingWs (d :: s)) :
    noTrailingWs s := by
  cases s with
  | nil => intro c hc; simp at hc
  | cons e s' =>
    intro c hc
    exact h c (by rw [List.getLast?_cons_cons]; exact hc)

theorem noTrailingWs_last_false {s : Str} (hs : noTrailingWs s) (hne : s ≠ []) :
    ¬ (∀ c ∈ s, pyIsSpace c = true) := by
  intro hall
  have hmem := List.getLast_mem hne
  have hws := hall _ hmem
  have := hs (s.getLast hne) (List.getLast?_eq_getLast s hne ▸ rfl)
  rw [this] at hws
  exact Bool.false_ne_true hws


theorem collapseWsGo_true_eq (s : Str) :
    collapseWsGo true s = collapseWsGo false (s.dropWhile pyIsSpace) := by
  induction s with
  | nil => rfl
  | cons c cs ih =>
    by_cases hc : pyIsSpace c
    · simp [collapseWsGo, hc, List.dropWhile_cons, ih]
    · simp [collapseWsGo, hc, List.dropWhile_cons]


theorem collapseWsGo_cons_of_ws {c : Char} (hc : pyIsSpace c = true)
    (b : Bool) (cs : Str) : collapseWsGo b (c :: cs) =
      if b then collapseWsGo true cs else ' ' :: collapseWsGo true cs := by
  cases b <;> simp [collapseWsGo, hc]

theorem collapseWsGo_cons_of_nonws {c : Char} (hc : pyIsSpace c = false)
    (b : Bool) (cs : Str) :
    collapseWsGo b (c :: cs) = c :: collapseWsGo false cs := by
  cases b <;> simp [collapseWsGo, hc]

theorem collapseWsGo_word_front (w : Str) (hw : ∀ c ∈ w, pyIsSpace c = false) :
    ∀ r, collapseWsGo false (w ++ r) = w ++ collapseWsGo false r := by
  induction w with
  | nil => intro r; rfl
  | cons c w ih =>
    intro r
    have hc : pyIsSpace c = false := hw c (by simp)
    rw [List.cons_append, collapseWsGo_cons_of_nonws hc]
    rw [ih (fun d hd => hw d (by simp [hd])) r]
    rfl

theorem length_dropWhile_le (p : Char → Bool) (l : Str) :
    (l.dropWhile p).length ≤ l.length := by
  induction l with
  | nil => simp
  | cons c cs ih =>
    rw [List.dropWhile_cons]
    by_cases h : p c
    · rw [if_pos h]
      exact Nat.le_succ_of_le ih
    · rw [if_neg h]

theorem rstrip_append (x y : Str) :
    rstrip (x ++ y) = if rstrip y = [] then rstrip x else x ++ rstrip y := by
  unfold rstrip
  rw [List.reverse_append, List.dropWhile_append]
  by_cases h : List.dropWhile pyIsSpace y.reverse = []
  · rw [if_pos (by simp [h]), if_pos (by simp [h])]
  · rw [if_neg (by simp [h]), if_neg (by simp [h])]
    rw [List.reverse_append, List.reverse_reverse]

theorem rstrip_eq_self_of_nonws (w : Str) (hw : ∀ c ∈ w, pyIsSpace c = false) :
    rstrip w = w := by
  unfold rstrip
  cases hrev : w.reverse with
  | nil =>
    have : w = [] := by simpa using congrArg List.reverse hrev
    simp [this]
  | cons c cr =>
    have hc : c ∈ w := by
      rw [← List.mem_reverse, hrev]; simp
    rw [List.dropWhile_cons, if_neg (by simp [hw c hc])]
    rw [← hrev, List.reverse_reverse]

theorem joinSpace_nil : joinSpace [] = [] := rfl

theorem joinSpace_single (t : Str) : joinSpace [t] = t := by
  show t ++ [] = t
  exact List.append_nil t

theorem joinSpace_cons_general (t : Str) (ts : List Str) :
    joinSpace (t :: ts) = t ++ (if ts = [] then [] else ' ' :: joinSpace ts) := by
  cases ts with
  | nil => rw [if_pos rfl, joinSpace_single, List.append_nil]
  | cons t2 ts2 => rw [joinSpace_cons t (t2 :: ts2) (by simp), if_neg (by simp)]

theorem joinSpace_ne_nil (t : Str) (ts : List Str) (ht : t ≠ []) :
    joinSpace (t :: ts) ≠ [] := by
  rw [joinSpace_cons_general]
  intro h
  rcases List.append_eq_nil.mp h with ⟨h1, _⟩
  exact ht h1

theorem pyStartsWs_dropWhile (x : Str) :
    pyStartsWs (x.dropWhile pyIsSpace) = false := by
  cases hd : x.dropWhile pyIsSpace with
  | nil => rfl
  | cons c cr =>
    have := List.head?_dropWhile_not pyIsSpace x
    rw [hd] at this
    simpa [pyStartsWs] using this

theorem rstrip_collapseWs_fuel : ∀ (n : Nat) (s : Str), s.length ≤ n →
    rstrip (collapseWs s) =
      (if pyStartsWs s = true ∧ pySplit s ≠ [] then [' '] else []) ++
        joinSpace (pySplit s) := by
  intro n
  induction n with
  | zero =>
    intro s hs
    have h0 : s = [] := List.eq_nil_of_length_eq_zero (Nat.le_zero.mp hs)
    subst h0
    rw [show pySplit ([] : Str) = [] from rfl, joinSpace_nil]
    simp [collapseWs, collapseWsGo, rstrip, pyStartsWs]
  | succ n ih =>
    intro s hs
    match s with
    | [] =>
      rw [show pySplit ([] : Str) = [] from rfl, joinSpace_nil]
      simp [collapseWs, collapseWsGo, rstrip, pyStartsWs]
    | c :: cs =>
      have hcslen : cs.length ≤ n := by
        simpa [Nat.succ_le_succ_iff] using hs
      by_cases hc : pyIsSpace c
      · -- leading whitespace: one output space, then the collapsed rest
        have hcol : collapseWs (c :: cs) =
            [' '] ++ collapseWs (cs.dropWhile pyIsSpace) := by
          show collapseWsGo false (c :: cs) = _
          rw [collapseWsGo_cons_of_ws hc, if_neg (by simp),
            collapseWsGo_true_eq]
          rfl
        have hsplit : pySplit (c :: cs) = pySplit (cs.dropWhile pyIsSpace) := by
          show pySplitGo (c :: cs) [] = _
          rw [pySplitGo_cons_ws hc, if_pos rfl]
          show pySplit cs = _
          rw [← pySplit_lstrip cs]
          rfl
        have hlen : (cs.dropWhile pyIsSpace).length ≤ n :=
          Nat.le_trans (length_dropWhile_le _ _) hcslen
        have hrec := ih (cs.dropWhile pyIsSpace) hlen
        rw [pyStartsWs_dropWhile] at hrec
        rw [if_neg (by simp)] at hrec
        rw [List.nil_append] at hrec
        rw [hcol, rstrip_append, hrec]
        by_cases hnil : pySplit (cs.dropWhile pyIsSpace) = []
        · rw [hnil, joinSpace_nil, if_pos rfl]
          rw [show rstrip [' '] = ([] : Str) from by decide]
          rw [hsplit, hnil, joinSpace_nil]
          rw [if_neg (by simp)]
          rfl
        · obtain ⟨t, ts, hts⟩ : ∃ t ts, pySplit (cs.dropWhile pyIsSpace) = t :: ts := by
            cases h : pySplit (cs.dropWhile pyIsSpace) with
            | nil => exact absurd h hnil
            | cons a b => exact ⟨a, b, rfl⟩
          have htgood : GoodTok t := pySplit_good _ t (by rw [hts]; simp)
          have hjoin : joinSpace (pySplit (cs.dropWhile pyIsSpace)) ≠ [] := by
            rw [hts]; exact joinSpace_ne_nil t ts htgood.1
          rw [if_neg hjoin, hsplit]
          rw [if_pos ⟨by simp [pyStartsWs, hc], hnil⟩]
      · -- leading word: it survives unchanged, then recurse past it
        have hc' : pyIsSpace c = false := by simpa using hc
        set w := List.takeWhile (fun d => !pyIsSpace d) (c :: cs) with hw_def
        set r := List.dropWhile (fun d => !pyIsSpace d) (c :: cs) with hr_def
        have hdecomp : c :: cs = w ++ r :=
          (List.takeWhile_append_dropWhile _ _).symm
        have hw : ∀ d ∈ w, pyIsSpace d = false := by
          intro d hd
          have := List.mem_takeWhile_imp hd
          simpa using this
        have hwne : w ≠ [] := by
          rw [hw_def, List.takeWhile_cons, if_pos (by simp [hc'])]
          simp
        have hcol : collapseWs (c :: cs) = w ++ collapseWs r := by
          rw [collapseWs, hdecomp, collapseWsGo_word_front w hw r]
          rfl
        have hsplitgo : pySplit (c :: cs) = pySplitGo r w := by
          rw [pySplit, hdecomp, pySplitGo_append_nonws w hw r []]
          simp
        have hrlen : r.length ≤ n := by
          have h1 : r.length ≤ cs.length := by
            rw [hr_def, List.dropWhile_cons, if_pos (by simp [hc'])]
            exact length_dropWhile_le _ _
          omega
        have hrec := ih r hrlen
        have hstarts : pyStartsWs (c :: cs) = false := by simp [pyStartsWs, hc']
        cases hr : r with
        | nil =>
          rw [hcol, hr, show collapseWs ([] : Str) = [] from rfl,
            List.append_nil, rstrip_eq_self_of_nonws w hw]
          rw [hsplitgo, hr, show pySplitGo ([] : Str) w = [w] from by
            simp [pySplitGo, hwne]]
          rw [if_neg (by simp [hstarts]), joinSpace_single]
          rfl
        | cons d r' =>
          have hd : pyIsSpace d = true := by
            have := List.head?_dropWhile_not (fun e => !pyIsSpace e) (c :: cs)
            rw [← hr_def, hr] at this
            simpa using this
          have hsplit_r : pySplit (c :: cs) = w :: pySplit r := by
            rw [hsplitgo, hr, pySplitGo_cons_ws hd, if_neg hwne]
            show _ = w :: pySplitGo (d :: r') []
            rw [pySplitGo_cons_ws hd, if_pos rfl]
          have hstarts_r : pyStartsWs r = true := by rw [hr]; simp [pyStartsWs, hd]
          rw [hcol, rstrip_append, hrec]
          by_cases hnil : pySplit r = []
          · have hcond : ((if pyStartsWs r = true ∧ pySplit r ≠ [] then [' ']
                else []) ++ joinSpace (pySplit r)) = [] := by
              rw [hnil, joinSpace_nil, if_neg (by simp)]
              rfl
            rw [if_pos hcond, rstrip_eq_self_of_nonws w hw, hsplit_r, hnil]
            rw [if_neg (by simp [hstarts]), joinSpace_single]
            rfl
          · have hval_ne : ((if pyStartsWs r = true ∧ pySplit r ≠ [] then [' ']
                else []) ++ joinSpace (pySplit r)) ≠ [] := by
              rw [if_pos ⟨hstarts_r, hnil⟩]
              simp
            rw [if_neg hval_ne, if_pos ⟨hstarts_r, hnil⟩]
            rw [hsplit_r, if_neg (by simp [hstarts])]
            rw [joinSpace_cons w (pySplit r) hnil]
            simp

theorem rstrip_collapseWs (s : Str) :
    rstrip (collapseWs s) =
      (if pyStartsWs s = true ∧ pySplit s ≠ [] then [' '] else []) ++
        joinSpace (pySplit s) :=
  rstrip_collapseWs_fuel s.length s (Nat.le_refl _)

theorem lstrip_eq_self_of_not_startsWs (s : Str) (h : pyStartsWs s = false) :
    lstrip s = s := by
  cases s with
  | nil => rfl
  | cons c cs =>
    have hc : pyIsSpace c = false := by simpa [pyStartsWs] using h
    unfold lstrip
    rw [List.dropWhile_cons, if_neg (by simp [hc])]

theorem lstrip_joinSpace_pySplit (s : Str) :
    lstrip (joinSpace (pySplit s)) = joinSpace (pySplit s) := by
  apply lstrip_eq_self_of_not_startsWs
  cases h : pySplit s with
  | nil => rfl
  | cons t ts =>
    have htgood : GoodTok t := pySplit_good _ t (by rw [h]; simp)
    rw [joinSpace_cons_general]
    cases ht : t with
    | nil => exact absurd ht htgood.1
    | cons tc tt =>
      have htc : pyIsSpace tc = false := htgood.2 tc (by rw [ht]; simp)
      rw [List.cons_append]
      simp [pyStartsWs, htc]

/-- Whitespace normalization is the canonical join of the token list. -/
theorem normWs_eq_joinSpace (s : Str) : normWs s = joinSpace (pySplit s) := by
  unfold normWs pyStrip
  rw [rstrip_collapseWs]
  by_cases h : pyStartsWs s = true ∧ pySplit s ≠ []
  · rw [if_pos h]
    show lstrip (' ' :: joinSpace (pySplit s)) = _
    unfold lstrip
    rw [List.dropWhile_cons, if_pos (by decide)]
    exact lstrip_joinSpace_pySplit s
  · rw [if_neg h, List.nil_append]
    exact lstrip_joinSpace_pySplit s

theorem pySplit_normWs (s : Str) : pySplit (normWs s) = pySplit s := by
  rw [normWs_eq_joinSpace]
  exact pySplit_joinSpace (pySplit s) (pySplit_good s)

theorem normWs_pyStrip (s : Str) : normWs (pyStrip s) = normWs s := by
  rw [normWs_eq_joinSpace, normWs_eq_joinSpace, pySplit_pyStrip]

theorem pySplitGo_append_nonws_single {c : Char} (hc : pyIsSpace c = false) :
    ∀ (s acc : Str), noTrailingWs s →
      pySplitGo (s ++ [c]) acc =
        (pySplitGo s acc).dropLast ++
          [((pySplitGo s acc).getLast?.getD []) ++ [c]] := by
  intro s
  induction s with
  | nil =>
    intro acc _
    rw [List.nil_append, pySplitGo_cons_nonws hc]
    by_cases h : acc = []
    · subst h; simp [pySplitGo]
    · rw [show pySplitGo [] acc = [acc] from by simp [pySplitGo, h]]
      rw [show pySplitGo ([] : Str) (acc ++ [c]) = [acc ++ [c]] from by
        simp [pySplitGo]]
      simp
  | cons d s' ih =>
    intro acc hs
    by_cases hd : pyIsSpace d
    · have hs'ne : s' ≠ [] := by
        intro h
        subst h
        have := hs d (by simp)
        rw [hd] at this
        exact absurd this (by decide)
      have hs' : noTrailingWs s' := noTrailingWs_of_cons hs
      have hr'ne : pySplitGo s' [] ≠ [] := by
        rw [Ne, pySplitGo_eq_nil_iff]
        rintro ⟨hall, -⟩
        exact noTrailingWs_last_false hs' hs'ne hall
      rw [List.cons_append, pySplitGo_cons_ws hd, pySplitGo_cons_ws hd]
      by_cases hacc : acc = []
      · rw [if_pos hacc, if_pos hacc]
        exact ih [] hs'
      · rw [if_neg hacc, if_neg hacc]
        rw [ih [] hs']
        obtain ⟨a, r'', hr''⟩ : ∃ a r'', pySplitGo s' [] = a :: r'' := by
          cases h : pySplitGo s' [] with
          | nil => exact absurd h hr'ne
          | cons a b => exact ⟨a, b, rfl⟩
        rw [hr'']
        simp [List.dropLast_cons₂, List.getLast?_cons_cons]
    · have hd' : pyIsSpace d = false := by simpa using hd
      rw [List.cons_append, pySplitGo_cons_nonws hd', pySplitGo_cons_nonws hd']
      exact ih (acc ++ [d]) (noTrailingWs_of_cons hs)

theorem pySplit_append_nonws_single {c : Char} (hc : pyIsSpace c = false)
    (s : Str) (hs : noTrailingWs s) :
    pySplit (s ++ [c]) =
      (pySplit s).dropLast ++ [((pySplit s).getLast?.getD []) ++ [c]] :=
  pySplitGo_append_nonws_single hc s [] hs

theorem pyStrip_eq_self_of_good (w : Str) (hg : GoodTok w) : pyStrip w = w := by
  unfold pyStrip
  rw [rstrip_eq_self_of_nonws w hg.2]
  apply lstrip_eq_self_of_not_startsWs
  cases hw : w with
  | nil => rfl
  | cons a b =>
    have : pyIsSpace a = false := hg.2 a (by rw [hw]; simp)
    simp [pyStartsWs, this]

theorem filter_strip_pySplit (s : Str) :
    (pySplit s).filter (fun w => !(pyStrip w).isEmpty) = pySplit s := by
  rw [List.filter_eq_self]
  intro w hw
  have hg := pySplit_good s w hw
  rw [pyStrip_eq_self_of_good w hg]
  simpa using hg.1

/-! ## Library: case-insensitive duplicate suppression -/


theorem pushTok_noAdjDup (acc : List Str) (t : Str) (h : noAdjDupCI acc) :
    noAdjDupCI (pushTok acc t) := by
  unfold pushTok
  cases hl : acc.getLast? with
  | none =>
    have hnil : acc = [] := List.getLast?_eq_none_iff.mp hl
    subst hnil
    simp [noAdjDupCI]
  | some l =>
    change noAdjDupCI (if lowerTok t = lowerTok l then acc else acc ++ [t])
    by_cases he : lowerTok t = lowerTok l
    · rw [if_pos he]; exact h
    · rw [if_neg he]
      rw [noAdjDupCI, List.chain'_append]
      refine ⟨h, List.chain'_singleton _, ?_⟩
      intro x hx y hy
      rw [hl] at hx
      simp only [Option.mem_def, Option.some.injEq] at hx
      simp only [List.head?_cons, Option.mem_def, Option.some.injEq] at hy
      subst hx
      subst hy
      exact fun hEq => he hEq.symm

theorem pushTok_mem {acc : List Str} {t x : Str} (hx : x ∈ pushTok acc t) :
    x ∈ acc ∨ x = t := by
  unfold pushTok at hx
  cases hl : acc.getLast? with
  | none =>
    rw [hl] at hx
    change x ∈ acc ++ [t] at hx
    rcases List.mem_append.mp hx with h | h
    · exact Or.inl h
    · simp at h; exact Or.inr h
  | some l =>
    rw [hl] at hx
    change x ∈ (if lowerTok t = lowerTok l then acc else acc ++ [t]) at hx
    by_cases he : lowerTok t = lowerTok l
    · rw [if_pos he] at hx; exact Or.inl hx
    · rw [if_neg he] at hx
      rcases List.mem_append.mp hx with h | h
      · exact Or.inl h
      · simp at h; exact Or.inr h

theorem dedupeCI_noAdjDup (ws : List Str) : noAdjDupCI (dedupeCI ws) := by
  unfold dedupeCI
  refine List.foldlRecOn ws pushTok [] ?_ ?_
  · simp [noAdjDupCI]
  · intro b hb a _
    exact pushTok_noAdjDup b a hb

theorem dedupeCI_mem (ws : List Str) : ∀ x ∈ dedupeCI ws, x ∈ ws := by
  unfold dedupeCI
  refine @List.foldlRecOn (List Str) Str (fun l => ∀ x ∈ l, x ∈ ws)
    ws pushTok [] ?_ ?_
  · simp
  · intro b hb a ha x hx
    rcases pushTok_mem hx with h | h
    · exact hb x h
    · exact h ▸ ha

theorem interleaveFold_noAdjDup (tokenized : List (List Str)) (n : Nat) :
    noAdjDupCI ((List.range n).foldl
      (fun acc i => tokenized.foldl
        (fun a tl =>
          match tl[i]? with
          | some tok => pushTok a tok
          | none => a) acc) []) := by
  refine @List.foldlRecOn (List Str) Nat (fun l => noAdjDupCI l)
    (List.range n) _ [] List.chain'_nil ?_
  intro b hb i _
  refine @List.foldlRecOn (List Str) (List Str) (fun l => noAdjDupCI l)
    tokenized _ b hb ?_
  intro b' hb' tl _
  cases tl[i]? with
  | none => exact hb'
  | some tok => exact pushTok_noAdjDup b' tok hb'

theorem interleaveFold_mem (tokenized : List (List Str)) (n : Nat) :
    ∀ x ∈ (List.range n).foldl
      (fun acc i => tokenized.foldl
        (fun a tl =>
          match tl[i]? with
          | some tok => pushTok a tok
          | none => a) acc) [],
      ∃ tl ∈ tokenized, x ∈ tl := by
  refine @List.foldlRecOn (List Str) Nat
    (fun l => ∀ x ∈ l, ∃ tl ∈ tokenized, x ∈ tl)
    (List.range n) _ [] (by simp) ?_
  intro b hb i _
  refine @List.foldlRecOn (List Str) (List Str)
    (fun l => ∀ x ∈ l, ∃ tl ∈ tokenized, x ∈ tl)
    tokenized _ b hb ?_
  intro b' hb' tl htl x hx
  cases hidx : tl[i]? with
  | none =>
    rw [hidx] at hx
    exact hb' x hx
  | some tok =>
    rw [hidx] at hx
    rcases pushTok_mem hx with h | h
    · exact hb' x h
    · refine ⟨tl, htl, ?_⟩
      rcases List.getElem?_eq_some.mp hidx with ⟨hlt, hget⟩
      exact h ▸ (hget ▸ List.getElem_mem hlt)

theorem noTrailingWs_lstrip (x : Str) (h : noTrailingWs x) :
    noTrailingWs (lstrip x) := by
  intro c hc
  have hne : lstrip x ≠ [] := by
    intro h0
    rw [h0] at hc
    cases hc
  have hsuff : lstrip x <:+ x := List.dropWhile_suffix pyIsSpace
  rcases hsuff with ⟨pre, hpre⟩
  apply h c
  rw [← hpre, List.getLast?_append_of_ne_nil pre hne]
  exact hc

theorem noTrailingWs_pyStrip (x : Str) : noTrailingWs (pyStrip x) :=
  noTrailingWs_lstrip _ (noTrailingWs_rstrip x)

theorem rstrip_eq_self_of_noTrailingWs (s : Str) (h : noTrailingWs s) :
    rstrip s = s := by
  unfold rstrip
  cases hrev : s.reverse with
  | nil =>
    have : s = [] := by simpa using congrArg List.reverse hrev
    simp [this]
  | cons c cr =>
    have hc : s.getLast? = some c := by
      rw [← List.head?_reverse, hrev]
      rfl
    rw [List.dropWhile_cons, if_neg (by simp [h c hc])]
    rw [← hrev, List.reverse_reverse]

theorem getLast?_cons_of_ne_nil {α : Type _} (a : α) {l : List α} (h : l ≠ []) :
    (a :: l).getLast? = l.getLast? := by
  cases l with
  | nil => exact absurd rfl h
  | cons b m => rw [List.getLast?_cons_cons]

/-- The last token of a split is a suffix of the input (prefixed with the
pending accumulator) whenever the input ends in a non-whitespace
character. -/
theorem pySplitGo_last_suffix : ∀ (s acc : Str), noTrailingWs s → s ≠ [] →
    ∃ w, (pySplitGo s acc).getLast? = some w ∧ ∃ t, acc ++ s = t ++ w := by
  intro s
  induction s with
  | nil => intro acc _ h; exact absurd rfl h
  | cons d s' ih =>
    intro acc hs _
    by_cases hs'e : s' = []
    · subst hs'e
      have hd : pyIsSpace d = false := hs d rfl
      rw [pySplitGo_cons_nonws hd]
      exact ⟨acc ++ [d], by simp [pySplitGo], [], by simp⟩
    · have hnt : noTrailingWs s' := noTrailingWs_of_cons hs
      by_cases hd : pyIsSpace d
      · have hr'ne : pySplitGo s' [] ≠ [] := by
          rw [Ne, pySplitGo_eq_nil_iff]
          rintro ⟨hall, -⟩
          exact noTrailingWs_last_false hnt hs'e hall
        rcases ih [] hnt hs'e with ⟨w, hw, t, ht⟩
        rw [pySplitGo_cons_ws hd]
        refine ⟨w, ?_, ?_⟩
        · by_cases hacc : acc = []
          · rw [if_pos hacc]; exact hw
          · rw [if_neg hacc]
            rw [getLast?_cons_of_ne_nil acc hr'ne]
            exact hw
        · simp only [List.nil_append] at ht
          exact ⟨acc ++ [d] ++ t, by rw [ht]; simp⟩
      · have hd' : pyIsSpace d = false := by simpa using hd
        rw [pySplitGo_cons_nonws hd']
        rcases ih (acc ++ [d]) hnt hs'e with ⟨w, hw, t, ht⟩
        exact ⟨w, hw, t, by rw [← ht]; simp⟩

theorem noTrailingWs_joinSpace (F : List Str) (hF : ∀ f ∈ F, GoodTok f) :
    noTrailingWs (joinSpace F) := by
  induction F with
  | nil => intro c hc; cases hc
  | cons f F' ih =>
    by_cases hF'e : F' = []
    · subst hF'e
      intro c hc
      rw [joinSpace_single] at hc
      rcases List.mem_getLast?_eq_getLast (show c ∈ f.getLast? from hc) with
        ⟨hne, hceq⟩
      exact (hF f (by simp)).2 c (hceq ▸ List.getLast_mem hne)
    · intro c hc
      rw [joinSpace_cons f F' hF'e] at hc
      obtain ⟨g, F'', hgF⟩ : ∃ g F'', F' = g :: F'' := by
        cases F' with
        | nil => exact absurd rfl hF'e
        | cons g F'' => exact ⟨g, F'', rfl⟩
      have hJne : joinSpace F' ≠ [] := by
        rw [hgF]
        exact joinSpace_ne_nil g F'' (hF g (by rw [hgF]; simp)).1
      rw [List.getLast?_append_of_ne_nil f (by simp : ' ' :: joinSpace F' ≠ [])] at hc
      rw [getLast?_cons_of_ne_nil ' ' hJne] at hc
      exact ih (fun x hx => hF x (by simp [hx])) c hc

theorem pySplit_last_good_suffix (s : Str) (hs : noTrailingWs s) (hne : s ≠ []) :
    ∃ w, (pySplit s).getLast? = some w ∧ w.getLast? = s.getLast? ∧
      ∃ t, s = t ++ w := by
  rcases pySplitGo_last_suffix s [] hs hne with ⟨w, hw, t, ht⟩
  simp only [List.nil_append] at ht
  have hwmem : w ∈ pySplit s := by
    rcases List.mem_getLast?_eq_getLast (show w ∈ (pySplit s).getLast? from hw)
      with ⟨h1, h2⟩
    exact h2 ▸ List.getLast_mem h1
  have hwne : w ≠ [] := (pySplit_good s w hwmem).1
  refine ⟨w, hw, ?_, t, ht⟩
  rw [ht, List.getLast?_append_of_ne_nil t hwne]

/-- The one-translation round-robin of interleave_words collects the first
n tokens of the single token list in order. -/
theorem rangeFold_single (tl : List Str) : ∀ n : Nat,
    (List.range n).foldl
      (fun acc i => List.foldl
        (fun a tl2 =>
          match tl2[i]? with
          | some tok => a ++ [tok]
          | none => a) acc [tl]) [] = tl.take n := by
  intro n
  induction n with
  | zero => rfl
  | succ n ih =>
    rw [List.range_succ, List.foldl_append, ih]
    simp only [List.foldl_cons, List.foldl_nil]
    cases h : tl[n]? with
    | none =>
      have hlen : tl.length ≤ n := List.getElem?_eq_none_iff.mp h
      rw [List.take_of_length_le hlen, List.take_of_length_le (Nat.le_succ_of_le hlen)]
    | some tok =>
      rw [List.take_succ, h]
      rfl


theorem build_fillers_pos (E : PyExt) (env : PyEnv) (diff : Int) (m : Nat)
    (st : Str) (hk : min m (max 0 diff).toNat ≠ 0) :
    build_fillers E env diff m (some st) =
      joinSpace (chosenFillers E (E.sha256hex16 st) (min m (max 0 diff).toNat)) := by
  unfold build_fillers chosenFillers
  rw [if_neg hk]
  by_cases h6 : min m (max 0 diff).toNat ≤ _DEFAULT_FILLERS.length
  · rw [if_pos h6, if_pos h6]
  · rw [if_neg h6, if_neg h6]

theorem goodTok_default_fillers : ∀ f ∈ _DEFAULT_FILLERS, GoodTok f := by
  have h : ∀ f ∈ _DEFAULT_FILLERS, f ≠ [] ∧ ∀ c ∈ f, pyIsSpace c = false := by
    decide
  exact h

theorem phraseSliceAssemble_mem (segments : List (List Str)) :
    ∀ x ∈ phraseSliceAssemble segments, ∃ ws ∈ segments, x ∈ ws := by
  intro x hx
  unfold phraseSliceAssemble at hx
  rw [List.mem_flatten] at hx
  rcases hx with ⟨m, hm, hxm⟩
  rcases List.mem_map.mp hm with ⟨p, hp, rfl⟩
  obtain ⟨i, a⟩ := p
  refine ⟨a, ?_, ?_⟩
  · rcases List.mem_enum hp with ⟨hlt, ha⟩
    exact ha ▸ List.getElem_mem hlt
  · dsimp only at hxm
    split at hxm
    · exact List.mem_of_mem_drop (List.mem_of_mem_take hxm)
    · exact List.mem_of_mem_take hxm

theorem noAdjDup_join_dedupe (X : List Str) (hX : ∀ w ∈ X, GoodTok w) :
    noAdjDupCI (pySplit (joinSpace (dedupeCI X))) := by
  rw [pySplit_joinSpace]
  · exact dedupeCI_noAdjDup X
  · intro w hw
    exact hX w (dedupeCI_mem X w hw)


/-! ## Unfolding equations for the enhancer -/

theorem count_syllables_def (E : PyExt) (text lang : Str) :
    count_syllables E text lang =
      if clean_text text = [] then 0
      else if (String.toList "en").isPrefixOf lang then
        ((pySplit (clean_text text)).map (enWordSyllables E)).sum
      else
        ((pySplit (clean_text text)).map _syllable_count_heuristic_word).sum := rfl

theorem syllable_heuristic_def (w : Str) :
    _syllable_count_heuristic_word w =
      if (lowerTok w).filter heuristicKeepChar = [] then 0
      else if countVowelGroups false ((lowerTok w).filter heuristicKeepChar) > 0
        then countVowelGroups false ((lowerTok w).filter heuristicKeepChar)
        else 1 := rfl

theorem insert_fillers_def (t f : Str) :
    insert_fillers_safely t f =
      if f = [] then t
      else
        match (pyStrip t).getLast? with
        | some c =>
          if sentencePunct.contains c then
            rstrip (pyStrip t).dropLast ++ [',', ' '] ++ f ++ [c]
          else pyStrip t ++ [',', ' '] ++ f
        | none => pyStrip t ++ [',', ' '] ++ f := rfl

theorem insert_fillers_punct (t f : Str) (hf : f ≠ []) (c : Char)
    (hl : (pyStrip t).getLast? = some c)
    (hp : sentencePunct.contains c = true) :
    insert_fillers_safely t f =
      rstrip (pyStrip t).dropLast ++ [',', ' '] ++ f ++ [c] := by
  rw [insert_fillers_def, if_neg hf, hl]
  show (if sentencePunct.contains c = true then
      rstrip (pyStrip t).dropLast ++ [',', ' '] ++ f ++ [c]
    else pyStrip t ++ [',', ' '] ++ f) = _
  rw [if_pos hp]

theorem insert_fillers_nopunct (t f : Str) (hf : f ≠ []) (c : Char)
    (hl : (pyStrip t).getLast? = some c)
    (hp : sentencePunct.contains c = false) :
    insert_fillers_safely t f = pyStrip t ++ [',', ' '] ++ f := by
  rw [insert_fillers_def, if_neg hf, hl]
  show (if sentencePunct.contains c = true then
      rstrip (pyStrip t).dropLast ++ [',', ' '] ++ f ++ [c]
    else pyStrip t ++ [',', ' '] ++ f) = _
  rw [if_neg (show ¬sentencePunct.contains c = true from fun hcon => by
    rw [hp] at hcon; cases hcon)]

theorem pySplit_append_ws_cons {c : Char} (hc : pyIsSpace c = true) (a b : Str) :
    pySplit (a ++ c :: b) = pySplit a ++ pySplit b :=
  pySplitGo_append_ws_cons hc a b []

theorem enhancement_eq_ite (E : PyExt) (env : PyEnv)
    (original translated : Str) (m : Nat) :
    rhythmic_translation_enhancement E env original translated m =
      if ((count_syllables E original (String.toList "en") : Int) -
          (count_syllables E translated (String.toList "xx") : Int)) ≤ 0 then
        (normWs (pyStrip translated),
         count_syllables E original (String.toList "en"),
         count_syllables E translated (String.toList "xx"),
         count_syllables E translated (String.toList "xx"),
         (count_syllables E original (String.toList "en") : Int) -
           (count_syllables E translated (String.toList "xx") : Int))
      else
        (normWs (insert_fillers_safely translated (build_fillers E env
            ((count_syllables E original (String.toList "en") : Int) -
             (count_syllables E translated (String.toList "xx") : Int)) m
            (some (translated ++ original)))),
         count_syllables E original (String.toList "en"),
         count_syllables E translated (String.toList "xx"),
         count_syllables E (insert_fillers_safely translated (build_fillers E env
            ((count_syllables E original (String.toList "en") : Int) -
             (count_syllables E translated (String.toList "xx") : Int)) m
            (some (translated ++ original)))) (String.toList "xx"),
         (count_syllables E original (String.toList "en") : Int) -
           (count_syllables E translated (String.toList "xx") : Int)) := rfl

/-! ## The claims -/

/-- C1: rhythmic_translation_enhancement is deterministic.  The ambient
interpreter state (global random-module state, wall clock) is passed
explicitly; neither the 5-tuple it returns nor the fillers built by
build_fillers depend on it, because build_fillers seeds a fresh generator
from the sha256-derived hash of translated ++ original.  Hence two calls
with identical arguments return the identical 5-tuple with the same filler
tokens in the same order. -/
theorem c1_enhancement_deterministic :
    ∀ (E : PyExt) (env1 env2 : PyEnv) (original translated : Str)
      (max_fillers : Nat),
      rhythmic_translation_enhancement E env1 original translated max_fillers =
        rhythmic_translation_enhancement E env2 original translated max_fillers ∧
      ∀ (diff : Int) (seed_text : Option Str),
        build_fillers E env1 diff max_fillers seed_text =
          build_fillers E env2 diff max_fillers seed_text :=
  fun _ _ _ _ _ _ => ⟨rfl, fun _ _ => rfl⟩

/-- C2: when the English syllable estimate of the original is at most the
generic estimate of the translation (deficit at most 0), the enhancer
returns the translation unchanged except for whitespace normalization
(trimming plus collapsing whitespace runs to single spaces), and the
reported after-count equals the before-count. -/
theorem c2_enhancement_noop_when_no_deficit (E : PyExt) (env : PyEnv)
    (original translated : Str) (max_fillers : Nat)
    (h : count_syllables E original (String.toList "en") ≤
         count_syllables E translated (String.toList "xx")) :
    (rhythmic_translation_enhancement E env original translated max_fillers).1 =
      normWs translated ∧
    (rhythmic_translation_enhancement E env original translated max_fillers).2.2.2.1 =
      (rhythmic_translation_enhancement E env original translated max_fillers).2.2.1 := by
  have hd : ((count_syllables E original (String.toList "en") : Int) -
      (count_syllables E translated (String.toList "xx") : Int)) ≤ 0 := by
    omega
  rw [enhancement_eq_ite, if_pos hd]
  exact ⟨normWs_pyStrip translated, rfl⟩

/-- Witness for C2 at a concrete input with zero deficit. -/
theorem c2_witness :
    (rhythmic_translation_enhancement extTest envZero [] (String.toList "hola") 3).1 =
      normWs (String.toList "hola") ∧
    (rhythmic_translation_enhancement extTest envZero [] (String.toList "hola") 3).2.2.2.1 =
      (rhythmic_translation_enhancement extTest envZero [] (String.toList "hola") 3).2.2.1 :=
  c2_enhancement_noop_when_no_deficit extTest envZero [] (String.toList "hola") 3
    (by decide)

/-- C4 counterexample: blending the single translation list with the
LastWordSwap strategy does not return the translation; it returns the
original line with its last word swapped (the output here is the spec
example output I love amo, not Te amo). -/
theorem c4_counterexample :
    blendUtils_last_word_swap (String.toList "I love you")
      [String.toList "Te amo"] = String.toList "I love amo" ∧
    String.toList "I love amo" ≠ String.toList "Te amo" ∧
    app_last_word_swap (String.toList "I love you")
      [String.toList "Te amo"] = String.toList "I love amo" ∧
    app_interleave_words [] [String.toList "la la"] ≠ String.toList "la la" := by
  decide

/-- C4 amended: the single-translation identity holds for PhraseSwap in
both variants; Interleave instead returns the tokens of the translation
rejoined with single spaces (shown for the blend_utils variant; the app
variant additionally suppresses consecutive case-insensitive duplicates);
LastWordSwap returns an edited original line, not the translation. -/
theorem c4_amended_single_translation (original x : Str) :
    blendUtils_phrase_swap original [x] = x ∧
    app_phrase_swap original [x] = x ∧
    blendUtils_interleave_words original [x] = joinSpace (pySplit x) := by
  refine ⟨rfl, rfl, ?_⟩
  show joinSpace ((List.range ((List.map List.length [pySplit x]).foldl max 0)).foldl
      (fun acc i => List.foldl
        (fun a tl =>
          match tl[i]? with
          | some tok => a ++ [tok]
          | none => a) acc [pySplit x]) []) = joinSpace (pySplit x)
  have hml : (List.map List.length [pySplit x]).foldl max 0 = (pySplit x).length := by
    show max 0 (pySplit x).length = (pySplit x).length
    exact Nat.zero_max _
  rw [hml, rangeFold_single (pySplit x) (pySplit x).length, List.take_length]

/-- C5 counterexample: with translations p q and x y z the code produces
p y z (it keeps the tokens of B from index floor(len/2) on, which are the
last ceil(len/2) tokens), while the claim predicts the last floor(len/2)
tokens of B, giving p z. -/
theorem c5_counterexample :
    blendUtils_phrase_swap [] [String.toList "p q", String.toList "x y z"] =
      String.toList "p y z" ∧
    blendUtils_phrase_swap [] [String.toList "p q", String.toList "x y z"] ≠
      joinSpace ((pySplit (String.toList "p q")).take
          (((pySplit (String.toList "p q")).length + 1) / 2) ++
        (pySplit (String.toList "x y z")).drop
          ((pySplit (String.toList "x y z")).length -
            (pySplit (String.toList "x y z")).length / 2)) := by
  decide

/-- C5 amended: for two translations, phrase_swap returns the first
ceil(len(a)/2) tokens of A followed by the tokens of B from index
floor(len(b)/2) on (the last ceil(len(b)/2) tokens, not the last
floor(len(b)/2)), joined by single spaces; the app variant additionally
collapses consecutive case-insensitive duplicates. -/
theorem c5_amended_phrase_swap_two (original A B : Str) :
    blendUtils_phrase_swap original [A, B] =
      joinSpace ((pySplit A).take (((pySplit A).length + 1) / 2) ++
        (pySplit B).drop ((pySplit B).length / 2)) ∧
    app_phrase_swap original [A, B] =
      joinSpace (dedupeCI ((pySplit A).take (((pySplit A).length + 1) / 2) ++
        (pySplit B).drop ((pySplit B).length / 2))) := by
  constructor
  · show joinSpace
        (((pySplit A).filter (fun w => !(pyStrip w).isEmpty)).take
          ((((pySplit A).filter (fun w => !(pyStrip w).isEmpty)).length + 1) / 2) ++
         ((pySplit B).filter (fun w => !(pyStrip w).isEmpty)).drop
          (((pySplit B).filter (fun w => !(pyStrip w).isEmpty)).length / 2)) = _
    rw [filter_strip_pySplit, filter_strip_pySplit]
  · rfl

/-- C6 counterexample: for text containing a comma and no trailing
sentence punctuation, the fillers are appended at the end, not inserted
before the last comma-delimited clause as the claim states. -/
theorem c6_counterexample :
    insert_fillers_safely (String.toList "a, b") (String.toList "oh") =
      String.toList "a, b, oh" ∧
    String.toList "a, b, oh" ≠ String.toList "a, oh, b" := by
  decide

/-- C6 amended: with a nonempty filler string, the fillers are inserted
(with a preceding comma) immediately before a trailing sentence-final
punctuation mark when the stripped text ends in one; in every other case
(including text that contains a comma) they are appended at the end as a
new clause introduced by a comma. -/
theorem c6_amended_insert_fillers (t fillers : Str) (hf : fillers ≠ []) :
    (∀ c, (pyStrip t).getLast? = some c → sentencePunct.contains c = true →
      insert_fillers_safely t fillers =
        rstrip (pyStrip t).dropLast ++ [',', ' '] ++ fillers ++ [c]) ∧
    (∀ c, (pyStrip t).getLast? = some c → sentencePunct.contains c = false →
      insert_fillers_safely t fillers = pyStrip t ++ [',', ' '] ++ fillers) ∧
    ((pyStrip t).getLast? = none →
      insert_fillers_safely t fillers = pyStrip t ++ [',', ' '] ++ fillers) := by
  refine ⟨?_, ?_, ?_⟩
  · intro c hl hp
    exact insert_fillers_punct t fillers hf c hl hp
  · intro c hl hp
    exact insert_fillers_nopunct t fillers hf c hl hp
  · intro hl
    rw [insert_fillers_def, if_neg hf, hl]

/-- Witness for C6 at a concrete input ending in a period. -/
theorem c6_witness :
    insert_fillers_safely (String.toList "hola .") (String.toList "oh") =
      rstrip (pyStrip (String.toList "hola .")).dropLast ++ [',', ' '] ++
        String.toList "oh" ++ ['.'] :=
  (c6_amended_insert_fillers (String.toList "hola .") (String.toList "oh")
    (by decide)).1 '.' (by decide) (by decide)

/-- C8 counterexample: the word 123 is nonempty but every character is
removed by the recognized-character filter, so it contributes 0 syllables
on the generic path, contradicting the claim that every nonempty word
contributes at least 1. -/
theorem c8_counterexample :
    _syllable_count_heuristic_word (String.toList "123") = 0 ∧
    String.toList "123" ≠ [] ∧
    count_syllables extTest (String.toList "123") (String.toList "xx") = 0 := by
  decide

/-- C8 amended: under the generic path a word contributes at least 1
syllable exactly when it still contains a recognized character after
lowercasing and filtering; a word whose characters are all filtered out
(digits, punctuation) contributes 0; empty input to the estimator returns
0 overall for every language hint. -/
theorem c8_amended_heuristic_minimum (w : Str) (E : PyExt) (lang : Str) :
    ((lowerTok w).filter heuristicKeepChar ≠ [] →
      1 ≤ _syllable_count_heuristic_word w) ∧
    ((lowerTok w).filter heuristicKeepChar = [] →
      _syllable_count_heuristic_word w = 0) ∧
    count_syllables E [] lang = 0 := by
  refine ⟨?_, ?_, rfl⟩
  · intro h
    rw [syllable_heuristic_def, if_neg h]
    split
    · omega
    · exact Nat.le_refl 1
  · intro h
    rw [syllable_heuristic_def, if_pos h]

/-- Witness for C8 at concrete words. -/
theorem c8_witness :
    1 ≤ _syllable_count_heuristic_word (String.toList "la") ∧
    _syllable_count_heuristic_word (String.toList "?!") = 0 :=
  ⟨(c8_amended_heuristic_minimum (String.toList "la") extTest []).1 (by decide),
   (c8_amended_heuristic_minimum (String.toList "?!") extTest []).2.1 (by decide)⟩

/-- C9 counterexample: when the pronouncing dictionary returns an entry
but the syllable counter fails (raises), the word la degrades to its
vowel-group heuristic count 1, not to a zero-syllable count as the claim
states. -/
theorem c9_counterexample :
    count_syllables extFailingCounter (String.toList "la") (String.toList "en") = 1 ∧
    _syllable_count_heuristic_word (String.toList "la") = 1 ∧
    (1 : Nat) ≠ 0 := by
  decide

/-- C9 amended: the enhancer is total and never raises: it always returns
the 5-tuple whose second, third and fifth components are the two estimates
and their difference; and when the external syllable counter fails on
every input, the English path degrades to the per-word vowel-group
heuristic, which coincides with the generic path (not with a zero
count). -/
theorem c9_amended_total_degradation (E : PyExt) (env : PyEnv)
    (original translated : Str) (max_fillers : Nat) :
    (rhythmic_translation_enhancement E env original translated max_fillers).2.1 =
      count_syllables E original (String.toList "en") ∧
    (rhythmic_translation_enhancement E env original translated max_fillers).2.2.1 =
      count_syllables E translated (String.toList "xx") ∧
    (rhythmic_translation_enhancement E env original translated max_fillers).2.2.2.2 =
      (count_syllables E original (String.toList "en") : Int) -
        (count_syllables E translated (String.toList "xx") : Int) ∧
    ∀ (E2 : PyExt), (∀ p, E2.pronouncing_syllable_count p = none) →
      ∀ text, count_syllables E2 text (String.toList "en") =
        count_syllables E2 text (String.toList "xx") := by
  refine ⟨?_, ?_, ?_, ?_⟩
  · rw [enhancement_eq_ite]
    split <;> rfl
  · rw [enhancement_eq_ite]
    split <;> rfl
  · rw [enhancement_eq_ite]
    split <;> rfl
  · intro E2 hE2 text
    rw [count_syllables_def, count_syllables_def]
    by_cases hc : clean_text text = []
    · rw [if_pos hc, if_pos hc]
    · rw [if_neg hc, if_neg hc]
      rw [if_pos (by decide), if_neg (by decide)]
      congr 1
      apply List.map_congr_left
      intro w _
      unfold enWordSyllables
      cases hph : E2.phones_for_word (lowerTok w) with
      | nil => rfl
      | cons p ps =>
        show (match E2.pronouncing_syllable_count p with
          | some n => n
          | none => _syllable_count_heuristic_word w) =
            _syllable_count_heuristic_word w
        rw [hE2 p]

/-- Witness for C9: the degradation clause at a failing counter and the
deficit equation at concrete inputs. -/
theorem c9_witness :
    count_syllables extFailingCounter (String.toList "banana la")
        (String.toList "en") =
      count_syllables extFailingCounter (String.toList "banana la")
        (String.toList "xx") ∧
    (rhythmic_translation_enhancement extTest envZero (String.toList "a")
        (String.toList "b") 2).2.2.2.2 =
      (count_syllables extTest (String.toList "a") (String.toList "en") : Int) -
        (count_syllables extTest (String.toList "b") (String.toList "xx") : Int) :=
  ⟨(c9_amended_total_degradation extTest envZero [] [] 0).2.2.2
      extFailingCounter (fun _ => rfl) (String.toList "banana la"),
   (c9_amended_total_degradation extTest envZero (String.toList "a")
      (String.toList "b") 2).2.2.1⟩

/-- C3 counterexample: the blend_utils Interleave performs no duplicate
suppression, so a repeated token survives into the output. -/
theorem c3_counterexample :
    blendUtils_interleave_words [] [String.toList "la la"] =
      String.toList "la la" ∧
    ¬ noAdjDupCI (pySplit (blendUtils_interleave_words []
      [String.toList "la la"])) ∧
    app_phrase_swap [] [String.toList "la la"] = String.toList "la la" := by
  refine ⟨by decide, ?_, rfl⟩
  intro h
  have hsplit : pySplit (blendUtils_interleave_words [] [String.toList "la la"]) =
      [String.toList "la", String.toList "la"] := by decide
  rw [noAdjDupCI, hsplit] at h
  exact (List.chain'_cons.mp h).1 rfl

/-- C3 amended: the app variant of Interleave never emits two consecutive
case-insensitive-equal tokens, and neither does the app variant of
PhraseSwap when given two or more translations (its single-translation
case returns the translation verbatim and the blend_utils variants perform
no suppression, as the counterexample shows). -/
theorem c3_amended_no_adjacent_duplicates (original : Str)
    (translations : List Str) :
    noAdjDupCI (pySplit (app_interleave_words original translations)) ∧
    (2 ≤ translations.length →
      noAdjDupCI (pySplit (app_phrase_swap original translations))) := by
  constructor
  · show noAdjDupCI (pySplit (joinSpace
      ((List.range ((List.map List.length (translations.map pySplit)).foldl max 0)).foldl
        (fun acc i => (translations.map pySplit).foldl
          (fun a tl =>
            match tl[i]? with
            | some tok => pushTok a tok
            | none => a) acc) [])))
    rw [pySplit_joinSpace]
    · exact interleaveFold_noAdjDup _ _
    · intro w hw
      rcases interleaveFold_mem _ _ w hw with ⟨tl, htl, hwtl⟩
      rcases List.mem_map.mp htl with ⟨t, _, rfl⟩
      exact pySplit_good t w hwtl
  · intro h2
    cases translations with
    | nil => simp at h2
    | cons a rest =>
      cases rest with
      | nil => simp at h2
      | cons b rest2 =>
        cases rest2 with
        | nil =>
          apply noAdjDup_join_dedupe
          intro w hw
          rcases List.mem_append.mp hw with h | h
          · exact pySplit_good a w (List.mem_of_mem_take h)
          · exact pySplit_good b w (List.mem_of_mem_drop h)
        | cons d rest3 =>
          apply noAdjDup_join_dedupe
          intro w hw
          rcases phraseSliceAssemble_mem _ w hw with ⟨ws, hws, hwws⟩
          rcases List.mem_map.mp hws with ⟨t, _, rfl⟩
          exact pySplit_good t w hwws

/-- Witness for C3 at a concrete pair of translations. -/
theorem c3_witness :
    noAdjDupCI (pySplit (app_interleave_words (String.toList "o")
      [String.toList "la la", String.toList "ba"])) ∧
    noAdjDupCI (pySplit (app_phrase_swap (String.toList "o")
      [String.toList "la la", String.toList "ba"])) :=
  ⟨(c3_amended_no_adjacent_duplicates (String.toList "o")
      [String.toList "la la", String.toList "ba"]).1,
   (c3_amended_no_adjacent_duplicates (String.toList "o")
      [String.toList "la la", String.toList "ba"]).2 (by decide)⟩

/-- C7 counterexample: the blend_utils LastWordSwap always takes the last
token of the first nonempty translation even when it equals the final
original token up to case; only the app variant avoids the no-op swap. -/
theorem c7_counterexample :
    blendUtils_last_word_swap (String.toList "go home")
      [String.toList "ir Home"] = String.toList "go Home" ∧
    String.toList "go Home" ≠ String.toList "go ir" ∧
    app_last_word_swap (String.toList "go home")
      [String.toList "ir Home"] = String.toList "go ir" := by
  decide

theorem app_last_word_swap_def (original : Str) (ts : List Str) :
    app_last_word_swap original ts =
      if pySplit (pyStrip original) = [] then original
      else appLastWordSwapLoop (pySplit (pyStrip original)) original ts := rfl

theorem appLastWordSwapLoop_cons (ow : List Str) (original t : Str)
    (rest : List Str) :
    appLastWordSwapLoop ow original (t :: rest) =
      match (pySplit (pyStrip t)).getLast? with
      | none => appLastWordSwapLoop ow original rest
      | some lastw =>
        joinSpace (ow.dropLast ++
          [if lowerTok lastw = lowerTok ((ow.getLast?).getD []) ∧
              1 < (pySplit (pyStrip t)).length
            then ((pySplit (pyStrip t))[(pySplit (pyStrip t)).length - 2]?).getD []
            else lastw]) := rfl

theorem appLastWordSwapLoop_all_empty (ow : List Str) (original : Str) :
    ∀ ts, (∀ p ∈ ts, pySplit p = []) →
      appLastWordSwapLoop ow original ts = original := by
  intro ts
  induction ts with
  | nil => intro _; rfl
  | cons t ts ih =>
    intro hts
    rw [appLastWordSwapLoop_cons]
    have h : pySplit (pyStrip t) = [] := by
      rw [pySplit_pyStrip]
      exact hts t (by simp)
    rw [h]
    show appLastWordSwapLoop ow original ts = original
    exact ih (fun q hq => hts q (by simp [hq]))

theorem appLastWordSwapLoop_skip_empty (ow : List Str) (original x : Str)
    (rest : List Str) :
    ∀ pre, (∀ p ∈ pre, pySplit p = []) →
      appLastWordSwapLoop ow original (pre ++ x :: rest) =
        appLastWordSwapLoop ow original (x :: rest) := by
  intro pre
  induction pre with
  | nil => intro _; rfl
  | cons p pre ih =>
    intro hpre
    rw [List.cons_append, appLastWordSwapLoop_cons]
    have h : pySplit (pyStrip p) = [] := by
      rw [pySplit_pyStrip]
      exact hpre p (by simp)
    rw [h]
    show appLastWordSwapLoop ow original (pre ++ x :: rest) = _
    exact ih (fun q hq => hpre q (by simp [hq]))

/-- C7 amended: the app variant of LastWordSwap replaces the last token of
the original with the last token of the first translation whose token list
is nonempty (empty ones are skipped); when that token equals the final
original token up to case and the translation has more than one token, the
second-to-last token is used instead; if every translation is empty the
original is returned.  The blend_utils variant lacks the case check, as the
counterexample shows. -/
theorem c7_amended_last_word_swap (original x : Str) (pre rest : List Str)
    (hpre : ∀ p ∈ pre, pySplit p = [])
    (ho : pySplit original ≠ []) (hx : pySplit x ≠ []) :
    app_last_word_swap original (pre ++ x :: rest) =
      joinSpace ((pySplit original).dropLast ++
        [if lowerTok ((pySplit x).getLast?.getD []) =
              lowerTok ((pySplit original).getLast?.getD []) ∧
            1 < (pySplit x).length
          then ((pySplit x)[(pySplit x).length - 2]?).getD []
          else (pySplit x).getLast?.getD []]) ∧
    ∀ ts, (∀ p ∈ ts, pySplit p = []) → app_last_word_swap original ts = original := by
  have hos : pySplit (pyStrip original) = pySplit original := pySplit_pyStrip _
  constructor
  · rw [app_last_word_swap_def, hos, if_neg ho]
    rw [appLastWordSwapLoop_skip_empty _ _ _ _ pre hpre]
    rw [appLastWordSwapLoop_cons, pySplit_pyStrip]
    obtain ⟨lw, hlw⟩ : ∃ lw, (pySplit x).getLast? = some lw := by
      cases h : (pySplit x).getLast? with
      | none => exact absurd (List.getLast?_eq_none_iff.mp h) hx
      | some lw => exact ⟨lw, rfl⟩
    rw [hlw]
    show joinSpace ((pySplit original).dropLast ++
        [if lowerTok lw = lowerTok (((pySplit original).getLast?).getD []) ∧
            1 < (pySplit x).length
          then ((pySplit x)[(pySplit x).length - 2]?).getD []
          else lw]) = _
    rfl
  · intro ts hts
    rw [app_last_word_swap_def]
    by_cases h0 : pySplit (pyStrip original) = []
    · rw [if_pos h0]
    · rw [if_neg h0]
      exact appLastWordSwapLoop_all_empty _ _ ts hts

/-- Witness for C7: an empty translation is skipped and the case-equal
last token forces the second-to-last token. -/
theorem c7_witness :
    app_last_word_swap (String.toList "go home")
        ([[]] ++ String.toList "ir Home" :: []) =
      joinSpace ((pySplit (String.toList "go home")).dropLast ++
        [if lowerTok ((pySplit (String.toList "ir Home")).getLast?.getD []) =
              lowerTok ((pySplit (String.toList "go home")).getLast?.getD []) ∧
            1 < (pySplit (String.toList "ir Home")).length
          then ((pySplit (String.toList "ir Home"))[(pySplit
              (String.toList "ir Home")).length - 2]?).getD []
          else (pySplit (String.toList "ir Home")).getLast?.getD []]) :=
  (c7_amended_last_word_swap (String.toList "go home") (String.toList "ir Home")
    [[]] [] (by decide) (by decide) (by decide)).1

/-- C10 counterexample: with original banana banana (6 estimated
syllables) and translated hola . (2 estimated syllables, deficit 4, 3
fillers chosen), the input has 2 whitespace tokens but the output has 4,
not 2 + 3 = 5: the lone trailing period token is merged away by the
insertion, so the output token count is not always input count plus the
number of fillers. -/
theorem c10_counterexample :
    (rhythmic_translation_enhancement extTest envZero
        (String.toList "banana banana") (String.toList "hola .") 3).2.2.2.2 = 4 ∧
    (rhythmic_translation_enhancement extTest envZero
        (String.toList "banana banana") (String.toList "hola .") 3).1 =
      String.toList "hola, oh la yeah." ∧
    (pySplit (rhythmic_translation_enhancement extTest envZero
        (String.toList "banana banana") (String.toList "hola .") 3).1).length = 4 ∧
    (pySplit (String.toList "hola .")).length + 3 = 5 ∧
    (4 : Nat) ≠ 5 := by
  decide

/-- C10 amended: with positive deficit, at least one allowed filler, a
nonempty token list, and a last input token that is not a lone
sentence-punctuation mark, the enhancer deletes nothing: the output tokens
are exactly the input tokens in order, except that the last input token
gains a trailing comma (its trailing sentence punctuation, when present,
moves to the end of the last filler), followed by the k chosen fillers;
hence the output has exactly k more tokens than the input.  When the last
input token is a bare punctuation mark the token count can drop, as the
counterexample shows. -/
theorem c10_amended_no_deletion (E : PyExt) (env : PyEnv)
    (original translated : Str) (max_fillers k : Nat) (w : Str) (lc : Char)
    (F : List Str)
    (hsample : ∀ seed k2, k2 ≤ _DEFAULT_FILLERS.length →
      (E.rndSample seed k2).length = k2 ∧
        ∀ f ∈ E.rndSample seed k2, f ∈ _DEFAULT_FILLERS)
    (hchoice : ∀ seed k2, (E.rndChoice seed k2).length = k2 ∧
      ∀ f ∈ E.rndChoice seed k2, f ∈ _DEFAULT_FILLERS)
    (hdiff : 0 < (count_syllables E original (String.toList "en") : Int) -
        (count_syllables E translated (String.toList "xx") : Int))
    (hmf : 0 < max_fillers)
    (hk : k = min max_fillers
      ((count_syllables E original (String.toList "en") : Int) -
        (count_syllables E translated (String.toList "xx") : Int)).toNat)
    (hF : F = chosenFillers E (E.sha256hex16 (translated ++ original)) k)
    (hlastw : (pySplit translated).getLast? = some w)
    (hlc : w.getLast? = some lc)
    (hshape : 2 ≤ w.length ∨ sentencePunct.contains lc = false) :
    pySplit (rhythmic_translation_enhancement E env original translated
        max_fillers).1 =
      (pySplit translated).dropLast ++
        [(if sentencePunct.contains lc then w.dropLast else w) ++ [',']] ++
        F.dropLast ++
        [F.getLast?.getD [] ++
          (if sentencePunct.contains lc then [lc] else [])] ∧
    (pySplit (rhythmic_translation_enhancement E env original translated
        max_fillers).1).length = (pySplit translated).length + k := by
  -- arithmetic normalization of the filler count
  have hcast : max 0 ((count_syllables E original (String.toList "en") : Int) -
      (count_syllables E translated (String.toList "xx") : Int)) =
      (count_syllables E original (String.toList "en") : Int) -
        (count_syllables E translated (String.toList "xx") : Int) :=
    max_eq_right (le_of_lt hdiff)
  have hk2 : min max_fillers
      (max 0 ((count_syllables E original (String.toList "en") : Int) -
        (count_syllables E translated (String.toList "xx") : Int))).toNat = k := by
    rw [hcast, ← hk]
  have hkpos : 0 < k := by
    rw [hk]
    have h1 : 0 < ((count_syllables E original (String.toList "en") : Int) -
        (count_syllables E translated (String.toList "xx") : Int)).toNat := by
      omega
    omega
  -- facts about the chosen fillers
  have hFlen : F.length = k := by
    rw [hF]
    unfold chosenFillers
    split
    · next h6 => exact (hsample _ _ h6).1
    · exact (hchoice _ _).1
  have hFmem : ∀ f ∈ F, f ∈ _DEFAULT_FILLERS := by
    rw [hF]
    unfold chosenFillers
    split
    · next h6 => exact (hsample _ _ h6).2
    · exact (hchoice _ _).2
  have hFgood : ∀ f ∈ F, GoodTok f := fun f hf =>
    goodTok_default_fillers f (hFmem f hf)
  have hFne : F ≠ [] := by
    intro h0
    rw [h0] at hFlen
    simp at hFlen
    omega
  obtain ⟨f0, F2, hF0⟩ : ∃ f0 F2, F = f0 :: F2 := by
    cases F with
    | nil => exact absurd rfl hFne
    | cons a b => exact ⟨a, b, rfl⟩
  have hFstr_ne : joinSpace F ≠ [] := by
    rw [hF0]
    exact joinSpace_ne_nil f0 F2 (hFgood f0 (by rw [hF0]; simp)).1
  have hFsplit : pySplit (joinSpace F) = F := pySplit_joinSpace F hFgood
  have hFnt : noTrailingWs (joinSpace F) := noTrailingWs_joinSpace F hFgood
  have hFre : F.dropLast ++ [F.getLast?.getD []] = F := by
    obtain ⟨g, hg⟩ : ∃ g, F.getLast? = some g := by
      cases h : F.getLast? with
      | none => exact absurd (List.getLast?_eq_none_iff.mp h) hFne
      | some g => exact ⟨g, rfl⟩
    rw [hg, Option.getD_some]
    exact List.dropLast_append_getLast? g hg
  -- facts about the stripped translation and its last token
  have hwsne : pySplit translated ≠ [] := by
    intro h0
    rw [h0] at hlastw
    cases hlastw
  have hGoodw : GoodTok w := by
    apply pySplit_good translated
    rcases List.mem_getLast?_eq_getLast
      (show w ∈ (pySplit translated).getLast? from hlastw) with ⟨h1, h2⟩
    exact h2 ▸ List.getLast_mem h1
  have hsplit_s : pySplit (pyStrip translated) = pySplit translated :=
    pySplit_pyStrip _
  have hsne : pyStrip translated ≠ [] := by
    intro h0
    apply hwsne
    rw [← hsplit_s, h0]
    rfl
  have hnt_s : noTrailingWs (pyStrip translated) := noTrailingWs_pyStrip translated
  obtain ⟨w2, hw2last, hw2char, t0, ht0⟩ :=
    pySplit_last_good_suffix (pyStrip translated) hnt_s hsne
  have hw2 : w2 = w := by
    rw [hsplit_s, hlastw] at hw2last
    injection hw2last with h
    exact h.symm
  rw [hw2] at hw2char ht0
  have hslast : (pyStrip translated).getLast? = some lc := by
    rw [← hw2char]
    exact hlc
  have hlc_nonws : pyIsSpace lc = false := by
    apply hGoodw.2
    rcases List.mem_getLast?_eq_getLast (show lc ∈ w.getLast? from hlc) with
      ⟨h1, h2⟩
    exact h2 ▸ List.getLast_mem h1
  have hcomma : pyIsSpace ',' = false := by decide
  have hspace : pyIsSpace ' ' = true := by decide
  -- the enhancer takes the positive-deficit branch
  have h1 : (rhythmic_translation_enhancement E env original translated
      max_fillers).1 = normWs (insert_fillers_safely translated (joinSpace F)) := by
    rw [enhancement_eq_ite, if_neg (not_le.mpr hdiff)]
    show normWs (insert_fillers_safely translated (build_fillers E env
        ((count_syllables E original (String.toList "en") : Int) -
          (count_syllables E translated (String.toList "xx") : Int))
        max_fillers (some (translated ++ original)))) = _
    rw [build_fillers_pos E env _ max_fillers (translated ++ original)
      (by rw [hk2]; omega)]
    rw [hk2, ← hF]
  suffices hmain : pySplit (rhythmic_translation_enhancement E env original
      translated max_fillers).1 =
      (pySplit translated).dropLast ++
        [(if sentencePunct.contains lc then w.dropLast else w) ++ [',']] ++
        F.dropLast ++
        [F.getLast?.getD [] ++
          (if sentencePunct.contains lc then [lc] else [])] by
    refine ⟨hmain, ?_⟩
    rw [hmain]
    have hws_pos : 0 < (pySplit translated).length := List.length_pos.mpr hwsne
    have hF_pos : 0 < F.length := by omega
    simp only [List.length_append, List.length_dropLast, List.length_cons,
      List.length_nil, hFlen]
    omega
  rw [h1, pySplit_normWs]
  by_cases hpunct : sentencePunct.contains lc = true
  · -- trailing punctuation: it moves behind the fillers
    have hw2len : 2 ≤ w.length := by
      rcases hshape with h | h
      · exact h
      · rw [h] at hpunct
        cases hpunct
    rw [insert_fillers_punct translated (joinSpace F) hFstr_ne lc hslast hpunct]
    have hw_eq : w.dropLast ++ [lc] = w :=
      List.dropLast_append_getLast? lc hlc
    have hu_ne : w.dropLast ≠ [] := by
      intro h0
      rw [h0] at hw_eq
      rw [← hw_eq] at hw2len
      simp at hw2len
    have hs_eq : pyStrip translated = (t0 ++ w.dropLast) ++ [lc] := by
      rw [ht0, ← hw_eq]
      simp [List.append_assoc]
    have hnt_sd : noTrailingWs (t0 ++ w.dropLast) := by
      intro c hc
      rw [List.getLast?_append_of_ne_nil t0 hu_ne] at hc
      apply hGoodw.2
      rcases List.mem_getLast?_eq_getLast
        (show c ∈ w.dropLast.getLast? from hc) with ⟨h1, h2⟩
      exact List.mem_of_mem_dropLast (h2 ▸ List.getLast_mem h1)
    have hsd : (pyStrip translated).dropLast = t0 ++ w.dropLast := by
      rw [hs_eq, List.dropLast_concat]
    have hrd : rstrip (pyStrip translated).dropLast = t0 ++ w.dropLast := by
      rw [hsd]
      exact rstrip_eq_self_of_noTrailingWs _ hnt_sd
    have hkey : pySplit translated =
        (pySplit (t0 ++ w.dropLast)).dropLast ++
          [((pySplit (t0 ++ w.dropLast)).getLast?.getD []) ++ [lc]] := by
      rw [← hsplit_s, hs_eq]
      exact pySplit_append_nonws_single hlc_nonws (t0 ++ w.dropLast) hnt_sd
    have hu_eq : (pySplit (t0 ++ w.dropLast)).getLast?.getD [] = w.dropLast := by
      have h2 : (pySplit translated).getLast? =
          some ((pySplit (t0 ++ w.dropLast)).getLast?.getD [] ++ [lc]) := by
        rw [hkey]
        exact List.getLast?_concat _
      rw [hlastw] at h2
      injection h2 with h3
      conv_rhs => rw [h3, List.dropLast_concat]
    have hr_ne : pySplit (t0 ++ w.dropLast) ≠ [] := by
      intro h0
      have hweq : w = [lc] := by
        have h2 : (pySplit translated).getLast? =
            some ((pySplit (t0 ++ w.dropLast)).getLast?.getD [] ++ [lc]) := by
          rw [hkey]
          exact List.getLast?_concat _
        rw [hlastw, h0] at h2
        simpa using h2
      rw [hweq] at hw2len
      simp at hw2len
    have hws_dl : (pySplit translated).dropLast =
        (pySplit (t0 ++ w.dropLast)).dropLast := by
      rw [hkey, List.dropLast_concat]
    have hr_decomp : pySplit (t0 ++ w.dropLast) =
        (pySplit translated).dropLast ++ [w.dropLast] := by
      obtain ⟨g, hg⟩ : ∃ g, (pySplit (t0 ++ w.dropLast)).getLast? = some g := by
        cases h : (pySplit (t0 ++ w.dropLast)).getLast? with
        | none => exact absurd (List.getLast?_eq_none_iff.mp h) hr_ne
        | some g => exact ⟨g, rfl⟩
      have hgu : g = w.dropLast := by
        have h4 := hu_eq
        rw [hg, Option.getD_some] at h4
        exact h4
      rw [hws_dl]
      conv_lhs => rw [← List.dropLast_append_getLast? g hg]
      rw [hgu]
    rw [hrd]
    have hassoc : (t0 ++ w.dropLast) ++ [',', ' '] ++ joinSpace F ++ [lc] =
        ((t0 ++ w.dropLast) ++ [',']) ++ ' ' :: (joinSpace F ++ [lc]) := by
      simp
    rw [hassoc, pySplit_append_ws_cons hspace]
    rw [pySplit_append_nonws_single hcomma (t0 ++ w.dropLast) hnt_sd]
    rw [pySplit_append_nonws_single hlc_nonws (joinSpace F) hFnt]
    rw [hFsplit, hr_decomp, List.dropLast_concat, List.getLast?_concat,
      Option.getD_some]
    rw [if_pos hpunct, if_pos hpunct]
    simp [List.append_assoc]
  · -- no trailing punctuation: the fillers are appended after a comma
    have hpunct' : sentencePunct.contains lc = false := by
      revert hpunct
      cases sentencePunct.contains lc <;> simp
    rw [insert_fillers_nopunct translated (joinSpace F) hFstr_ne lc hslast hpunct']
    have hassoc : pyStrip translated ++ [',', ' '] ++ joinSpace F =
        (pyStrip translated ++ [',']) ++ ' ' :: joinSpace F := by
      simp
    rw [hassoc, pySplit_append_ws_cons hspace]
    rw [pySplit_append_nonws_single hcomma (pyStrip translated) hnt_s]
    rw [hFsplit, hsplit_s, hlastw, Option.getD_some]
    rw [if_neg hpunct, if_neg hpunct]
    rw [List.append_nil]
    simp only [List.append_assoc]
    congr 1
    congr 1
    exact hFre.symm

/-- Witness for C10 at a concrete input whose trailing period is attached
to the last word. -/
theorem c10_witness :
    pySplit (rhythmic_translation_enhancement extTest envZero
        (String.toList "banana banana") (String.toList "hola.") 3).1 =
      [String.toList "hola,", String.toList "oh", String.toList "la",
       String.toList "yeah."] ∧
    (pySplit (rhythmic_translation_enhancement extTest envZero
        (String.toList "banana banana") (String.toList "hola.") 3).1).length =
      (pySplit (String.toList "hola.")).length + 3 := by
  have h := c10_amended_no_deletion extTest envZero
    (String.toList "banana banana") (String.toList "hola.") 3 3
    (String.toList "hola.") '.'
    [String.toList "oh", String.toList "la", String.toList "yeah"]
    (fun seed k2 hk2 => ⟨by
        show (_DEFAULT_FILLERS.take k2).length = k2
        rw [List.length_take]
        have h6 : _DEFAULT_FILLERS.length = 6 := by decide
        rw [h6] at hk2 ⊢
        omega,
      fun f hf => List.mem_of_mem_take hf⟩)
    (fun seed k2 => ⟨List.length_replicate k2 _, fun f hf => by
      have := (List.mem_replicate.mp hf).2
      rw [this]
      decide⟩)
    (by decide) (by decide) (by decide) (by decide) (by decide) (by decide)
    (Or.inl (by decide))
  refine ⟨?_, h.2⟩
  rw [h.1]
  decide
